import Mathlib

/-!
# Verification of the smart-tutor student/orchestration code

Shallow embedding of the relevant parts of `student.py`, `model_training.py`
and `mcts_tests.py`, together with theorems settling the behavioral claims
about them.  Machine integers are modelled as `Nat`, numpy 0/1 vectors as
`List Nat`, probabilities and model predictions as `ℚ`, and the stream of
uniform random draws consumed by `np.random.random()` as an explicit input
`Nat → ℚ`.  Fallible operations return `Except`.
-/

namespace SmartTutor

/-- Modelled from the spec: `concept_dependency_graph.py` is not under `src/`.
Per spec section 4.1 the graph exposes the concept count `n` and
`get_prereqs(concept)`, a binary prerequisite indicator vector of length `n`. -/
structure ConceptDependencyGraph where
  n : Nat
  get_prereqs : Nat → List Nat

/-- `exercise.Exercise`: a binary vector marking which concepts the exercise
tests (spec section 4.2; `exercise.py` is not under `src/`, but the class is a
bare value wrapper around the `concepts` vector). -/
structure Exercise where
  concepts : List Nat

/-- `np.sum(np.multiply(xs, ys))` on equal-length 0/1 vectors. -/
def dotSum (xs ys : List Nat) : Nat :=
  (List.zipWith (· * ·) xs ys).sum

/-- `Student.fulfilled_prereqs` / `Student2.fulfilled_prereqs`
(`student.py` lines 83-95 and 148-160, identical bodies): for each concept
marked `1` in the exercise vector, the knowledge mass on its prerequisite
vector must equal the prerequisite count, else the whole check fails. -/
def fulfilled_prereqs (knowledge : List Nat) (concept_tree : ConceptDependencyGraph)
    (concepts : List Nat) : Bool :=
  (List.range concepts.length).all fun i =>
    if concepts.getD i 0 = 1 then
      decide (dotSum knowledge (concept_tree.get_prereqs i) = (concept_tree.get_prereqs i).sum)
    else
      true

/-- `Student.learned_all_concepts_in_ex` / `Student2.learned_all_concepts_in_ex`
(`student.py` lines 97-101 and 162-166): false iff some concept marked `1`
in the exercise has knowledge `0`. -/
def learned_all_concepts_in_ex (knowledge : List Nat) (concepts : List Nat) : Bool :=
  (List.range concepts.length).all fun c =>
    !(concepts.getD c 0 = 1 && knowledge.getD c 0 = 0)

/-- `Student2` state (`student.py` lines 106-128): binary `knowledge` vector
and integer `visited` vector. -/
structure Student2 where
  knowledge : List Nat
  visited : List Nat

/-- The update loop of `Student2.do_exercise` (`student.py` lines 137-144)
run over the first `m` indices: for each index `c` in turn, if the exercise
marks `c` then set `knowledge[c] = 1` when `visited[c] >= 1`, and set
`visited[c] = 1`. -/
def student2_update_go (concepts knowledge visited : List Nat) (m : Nat) :
    List Nat × List Nat :=
  (List.range m).foldl
    (fun p c =>
      if concepts.getD c 0 = 1 then
        ((if p.2.getD c 0 ≥ 1 then p.1.set c 1 else p.1), p.2.set c 1)
      else p)
    (knowledge, visited)

/-- The update loop of `Student2.do_exercise` (`student.py` lines 137-144),
over all indices of the exercise vector (`for c in xrange(len(ex.concepts))`). -/
def student2_update (knowledge visited : List Nat) (concepts : List Nat) :
    List Nat × List Nat :=
  student2_update_go concepts knowledge visited concepts.length

/-- `Student2.do_exercise` (`student.py` lines 130-145).  Returns the updated
student paired with the observation; the Python `bool` return value is
rendered as `1`/`0` (Python `True == 1`, `False == 0`).  The return value is
`learned_all_concepts_in_ex` evaluated after any updates. -/
def Student2.do_exercise (s : Student2) (concept_tree : ConceptDependencyGraph)
    (ex : Exercise) : Student2 × Nat :=
  let s' :=
    if fulfilled_prereqs s.knowledge concept_tree ex.concepts then
      let p := student2_update s.knowledge s.visited ex.concepts
      Student2.mk p.1 p.2
    else s
  (s', if learned_all_concepts_in_ex s'.knowledge ex.concepts then 1 else 0)

/-- `Student` state (`student.py` lines 34-43): three transition
probabilities and the binary `knowledge` vector. -/
structure Student where
  p_trans_satisfied : ℚ
  p_trans_not_satisfied : ℚ
  p_get_ex_correct_if_concepts_learned : ℚ
  knowledge : List Nat

/-- `Student.do_exercise` (`student.py` lines 62-80), with the successive
`np.random.random()` results supplied as the input stream `draws` (consumed
left to right; Python's short-circuit `and` draws only for marked concepts).
Returns the updated student and the 0/1 observation. -/
def Student.do_exercise (s : Student) (concept_tree : ConceptDependencyGraph)
    (ex : Exercise) (draws : Nat → ℚ) : Student × Nat :=
  if fulfilled_prereqs s.knowledge concept_tree ex.concepts then
    let p := (List.range ex.concepts.length).foldl
      (fun (p : List Nat × Nat) c =>
        if ex.concepts.getD c 0 = 1 then
          (if draws p.2 ≤ s.p_trans_satisfied then (p.1.set c 1, p.2 + 1)
           else (p.1, p.2 + 1))
        else p)
      (s.knowledge, 0)
    let s' := { s with knowledge := p.1 }
    if learned_all_concepts_in_ex s'.knowledge ex.concepts ∧
        draws p.2 ≤ s.p_get_ex_correct_if_concepts_learned then
      (s', 1)
    else
      (s', 0)
  else
    (s, if draws 0 ≤ s.p_trans_not_satisfied then 1 else 0)

/-- `StudentAction` (`student.py` lines 202-214): a concept index plus its
one-hot vector. -/
structure StudentAction where
  concept : Nat
  conceptvec : List Nat

/-- `StudentAction.__eq__` (`student.py` lines 210-211): equality solely by
`concept`. -/
def StudentAction.pyEq (a b : StudentAction) : Bool :=
  a.concept == b.concept

/-- `StudentAction.__hash__` (`student.py` lines 213-214): the hash is the
concept index itself. -/
def StudentAction.pyHash (a : StudentAction) : Nat :=
  a.concept

/-- `StudentExactSim` (`student.py` lines 172-198), generic over the wrapped
student type (the Python object duck-types `Student` and `Student2`). -/
structure StudentExactSim (σ : Type) where
  student : σ
  dgraph : ConceptDependencyGraph

/-- `StudentExactSim.advance_simulator` (`student.py` lines 181-190), with the
wrapped student's `knowledge` accessor and (state-passing) `do_exercise`
method supplied as parameters.  The source computes
`reward = np.sum(self.student.knowledge)` first, then mutates the student via
`do_exercise`, then returns `(ob, reward)`; here the mutation becomes the new
simulator returned alongside. -/
def StudentExactSim.advance_simulator {σ : Type}
    (knowledgeOf : σ → List Nat)
    (doEx : σ → ConceptDependencyGraph → Exercise → σ × Nat)
    (sim : StudentExactSim σ) (action : StudentAction) :
    (Nat × Nat) × StudentExactSim σ :=
  let reward := (knowledgeOf sim.student).sum
  let r := doEx sim.student sim.dgraph (Exercise.mk action.conceptvec)
  ((r.2, reward), StudentExactSim.mk r.1 sim.dgraph)

/-! ## Memoization engine (`model_training.py`) -/

/-- Modelled from the spec: `helpers.py` is not under `src/`; section 4.15
gives `action_ob_encode(n_concepts, action, observation) = action * 2 +
observation`. -/
def action_ob_encode (n_concepts action ob : Nat) : Nat :=
  action * 2 + ob

/-- Modelled from the spec: `helpers.py` is not under `src/`; section 4.15
gives `history_ix_append(n_concepts, history_ix, digit) = history_ix *
(2*n_concepts) + digit` (the source's `index_base` is `n_concepts * 2`). -/
def history_ix_append (n_concepts history_ix branch : Nat) : Nat :=
  history_ix * (n_concepts * 2) + branch

/-- Modelled from the spec: `helpers.py` is not under `src/`; section 4.15
gives `num_histories(base, length) = base ^ length`. -/
def num_histories (base length : Nat) : Nat :=
  base ^ length

/-- The `(next_action, next_ob)` branch enumeration of
`dkt_memoize_single_recurse` (`model_training.py` lines 155-156): actions in
increasing order, each with observation `0` then `1`. -/
def memoBranches (n_concepts : Nat) : List (Nat × Nat) :=
  (List.range n_concepts).flatMap (fun a => [(a, 0), (a, 1)])

/-- Embedding of `dkt_memoize_single_recurse` (`model_training.py` lines
135-165) as its sequence of array writes: the mutation
`mem_arrays[step][next_history_ix,:] = next_dkt.sample_observations()` is
recorded as the event `(step, next_history_ix, value)`, in execution order.
The wrapped `RnnStudentSim` is modelled from the spec
(`dynamics_model_class.py` is not under `src/`; section 4.10): it carries the
history `sequence`, `advance_simulator` appends the `(action, ob)` pair, and
`sample_observations` is the abstract prediction function `pred` of the
current sequence; `copy` gives an independent sequence, as exploited by the
recursion. -/
def dkt_memoize_single_recurse (n_concepts : Nat) (pred : List (Nat × Nat) → List ℚ)
    (horizon step history_ix : Nat) (seq : List (Nat × Nat)) :
    List (Nat × Nat × List ℚ) :=
  if step > horizon then []
  else
    (memoBranches n_concepts).flatMap (fun b =>
      (step, history_ix_append n_concepts history_ix (action_ob_encode n_concepts b.1 b.2),
        pred (seq ++ [b])) ::
      dkt_memoize_single_recurse n_concepts pred horizon (step + 1)
        (history_ix_append n_concepts history_ix (action_ob_encode n_concepts b.1 b.2))
        (seq ++ [b]))
termination_by horizon + 1 - step
decreasing_by omega

/-- The `mem_arrays` allocation of `dkt_memoize_single` (`model_training.py`
lines 180-186): `horizon+1` zero tables, table `i` of shape
`num_histories(n_concepts*2, i) × n_concepts`. -/
def dkt_memoize_single_alloc (n_concepts horizon : Nat) : List (List (List ℚ)) :=
  (List.range (horizon + 1)).map (fun i =>
    List.replicate (num_histories (n_concepts * 2) i) (List.replicate n_concepts (0 : ℚ)))

/-- Number of write events a memoization run emits at level `k`, row `ix`. -/
def countWrites (log : List (Nat × Nat × List ℚ)) (k ix : Nat) : Nat :=
  log.countP (fun e => e.1 == k && e.2.1 == ix)

/-- A history whose digits are in range: every action below `n_concepts`,
every observation binary. -/
def validHistory (n_concepts : Nat) (h : List (Nat × Nat)) : Prop :=
  ∀ p ∈ h, p.1 < n_concepts ∧ p.2 < 2

/-- The history index obtained by appending the digits of `h` to
`history_ix`, exactly as the recursion threads it. -/
def encodeFrom (n_concepts history_ix : Nat) (h : List (Nat × Nat)) : Nat :=
  h.foldl
    (fun ix p => history_ix_append n_concepts ix (action_ob_encode n_concepts p.1 p.2))
    history_ix

/-- A concrete prediction function used to instantiate witnesses. -/
def lenPred : List (Nat × Nat) → List ℚ :=
  fun h => [(h.length : ℚ)]

/-! ## Worker-chunk accumulation and reduction (`mcts_tests.py`) -/

/-- The accumulation loop of `test_dkt_chunk` (`mcts_tests.py` lines
294-305): starting from `acc = 0.0`, `best_q = 0.0`, add each trajectory's
`(np.mean(k), best_q_value)` pair; the per-trajectory MCTS results are
supplied as the input list. -/
def test_dkt_chunk_accum (results : List (ℚ × ℚ)) : ℚ × ℚ :=
  results.foldl (fun acc r => (acc.1 + r.1, acc.2 + r.2)) (0, 0)

/-- The reduction of `test_dkt` (`mcts_tests.py` lines 338-340):
`np.sum(accs, axis=0) / (n_jobs * traj_per_job)` over the per-chunk
accumulator pairs. -/
def test_dkt_reduce (accs : List (ℚ × ℚ)) (total : Nat) : ℚ × ℚ :=
  ((accs.map Prod.fst).sum / (total : ℚ), (accs.map Prod.snd).sum / (total : ℚ))

/-! ## Checkpoint-directory creation (`model_training.py`, `mcts_tests.py`) -/

/-- The ways `os.makedirs` can fail. -/
inductive OSError where
  | alreadyExists
  | permissionDenied
  | invalidPath
  | otherError
deriving DecidableEq

/-- The directory-creation step of `dkt_train_models` (`model_training.py`
lines 105-110 and identically `mcts_tests.py` lines 491-497):
`try: os.makedirs(params.dir_name)` followed by a bare `except:` whose body
is `pass`.  The outcome of the `os.makedirs` call is supplied as input. -/
def dkt_train_models_makedirs (res : Except OSError Unit) : Except OSError Unit :=
  match res with
  | Except.ok _ => Except.ok ()
  | Except.error _ => Except.ok ()

/-! ## Worker partition (`model_training.py`) -/

/-- Python `range(0, stop, step)` for `step ≥ 1`. -/
def pyRange (stop step : Nat) : List Nat :=
  List.range' 0 ((stop + step - 1) / step) step

/-- The worker-partition logic shared verbatim by `dkt_train_models`
(`model_training.py` lines 115-121) and `dkt_memoize_models`
(`model_training.py` lines 225-232): `n_jobs = min(5, num_runs)`,
`assert(num_runs % n_jobs == 0)` (modelled as `Except.error`),
`runs_per_job = num_runs / n_jobs`, and one chunk
`(startix, runs_per_job)` per `startix in range(0, num_runs, runs_per_job)`. -/
def dkt_parallel_partition (num_runs : Nat) : Except String (List (Nat × Nat)) :=
  let n_jobs := min 5 num_runs
  if num_runs % n_jobs = 0 then
    let runs_per_job := num_runs / n_jobs
    Except.ok ((pyRange num_runs runs_per_job).map (fun startix => (startix, runs_per_job)))
  else
    Except.error ("AssertionError")

/-! ## The Student2 constructor call in `dkt_multistep_single` -/

/-- Number of parameters of `Student2.__init__` besides `self`
(`student.py` line 113: `def __init__(self, n_concepts)`). -/
def student2_init_arity : Nat := 1

/-- Number of positional arguments passed to `st.Student2` at
`model_training.py` line 257: `st.Student2(n_concepts, True)`. -/
def dkt_multistep_single_student2_args : Nat := 2

/-- CPython's positional-arity check for calling a function that declares
neither defaults nor varargs: the argument count must equal the parameter
count, otherwise the call raises `TypeError`. -/
def pythonCallCheck (nparams nargs : Nat) : Except String Unit :=
  if nargs = nparams then Except.ok () else Except.error ("TypeError")

/-- The ground-truth-student construction step of `dkt_multistep_single`
(`model_training.py` line 257), reached on every invocation after the models
are loaded and the concept tree is built, and before any trajectory is
sampled. -/
def dkt_multistep_single_construct_student : Except String Unit :=
  pythonCallCheck student2_init_arity dkt_multistep_single_student2_args

/-! ## Name resolution at `mcts_tests.py` line 191 -/

/-- Modelled from the spec: the reward-type tags exported by the vendored
`mcts` module (not under `src/`), per spec sections 3 and 4.11. -/
inductive RewardType where
  | DENSE
  | SEMISPARSE
  | SPARSE
deriving DecidableEq

/-- The local `r_type = DENSE` binding of `test_student_exact`
(`mcts_tests.py` line 173). -/
def test_student_exact_r_type : RewardType := RewardType.DENSE

/-- Top-level names bound in `mcts_tests.py` when `test_student_exact` runs:
the explicit imports (lines 10-52) and the module-level definitions. -/
def mcts_tests_module_names : List String :=
  ["np", "sp", "tf", "tflearn", "time", "copy", "pickle", "mp", "six", "os",
   "constants", "dg", "cdg", "st", "exer", "dmc", "dataset_utils",
   "SimpleMDP", "Parallel", "delayed", "tree_policies", "default_policies",
   "backups", "MCTS", "ExactGreedyPolicy", "DKTGreedyPolicy", "ActionNode",
   "StateNode", "DKTState", "StudentExactState", "DENSE", "SEMISPARSE",
   "SPARSE", "debug_visiter", "test_student_exact_single",
   "test_student_exact_single_greedy", "test_student_exact_chunk",
   "test_student_exact", "test_dkt_single", "test_dkt_single_greedy",
   "test_dkt_chunk", "test_dkt", "ExtractCallback", "staggered_dkt_training",
   "test_dkt_early_stopping", "dkt_test_policy", "dkt_train_models",
   "dkt_test_models_mcts", "dkt_test_models_policy"]

/-- Modelled from the spec: names brought in by the wildcard imports
`from mctslib.graph import *`, `from mctslib.mcts import *` and
`from helpers import *` (`mcts_tests.py` lines 33-36; those modules are not
under `src/`): the tree-node types and search entry point of the generic
search library (spec section 6) and the helper functions of spec section
4.15. -/
def mcts_tests_wildcard_names : List String :=
  ["StateNode", "ActionNode", "MCTS", "expected_reward",
   "compute_optimal_actions", "action_ob_encode", "history_ix_append",
   "num_histories", "sanitize_probs", "make_student_action",
   "make_student_action_vec"]

/-- Local names bound inside `test_student_exact` before line 191 executes
(`mcts_tests.py` lines 170-189): the two function-local imports and the
configuration locals. -/
def test_student_exact_locals : List String :=
  ["cdg", "create_custom_dependency", "use_greedy", "r_type", "n_concepts",
   "learn_prob", "horizon", "n_rollouts", "n_trajectories", "n_jobs",
   "traj_per_job", "dgraph", "student2", "test_student"]

/-- The full environment in which the argument expressions at
`mcts_tests.py` line 191 are evaluated: locals, module globals, and
wildcard-imported names. -/
def test_student_exact_env : List String :=
  test_student_exact_locals ++ mcts_tests_module_names ++ mcts_tests_wildcard_names

/-- The argument names passed to `test_student_exact_chunk` inside the
`Parallel` call at `mcts_tests.py` line 191, in evaluation order. -/
def test_student_exact_call_args : List String :=
  ["traj_per_job", "dgraph", "test_student", "horizon", "n_rollouts",
   "use_greedy", "sparse_r"]

/-- Python name lookup: a name evaluates successfully iff it is bound in the
environment, otherwise the interpreter raises `NameError`. -/
def resolveName (env : List String) (x : String) : Except String Unit :=
  if env.contains x then Except.ok () else Except.error ("NameError: name " ++ x ++ " is not defined")

/-- Evaluate a list of argument names left to right, stopping at the first
unresolved name. -/
def resolveAll (env : List String) : List String → Except String Unit
  | [] => Except.ok ()
  | x :: rest =>
    match resolveName env x with
    | Except.ok _ => resolveAll env rest
    | Except.error e => Except.error e

/-! ## Elementwise characterization of the `Student2.do_exercise` update loop -/

/-- `getD` after a `set`, spelled with the conditions the loop proofs need. -/
theorem getD_set_eq_if (l : List Nat) (i j a : Nat) :
    (l.set i a).getD j 0 = if i = j ∧ i < l.length then a else l.getD j 0 := by
  induction l generalizing i j with
  | nil => simp [List.getD]
  | cons x xs ih =>
    cases i with
    | zero =>
      cases j with
      | zero => simp [List.getD]
      | succ j => simp [List.getD]
    | succ i =>
      cases j with
      | zero => simp [List.getD]
      | succ j =>
        simp only [List.set, List.getD_cons_succ, List.length_cons, ih]
        by_cases h : i = j ∧ i < xs.length
        · rw [if_pos h, if_pos ⟨by omega, by omega⟩]
        · rw [if_neg h, if_neg (by omega)]

/-- Unfolding `student2_update_go` at zero iterations. -/
theorem student2_update_go_zero (concepts kn vis : List Nat) :
    student2_update_go concepts kn vis 0 = (kn, vis) := by
  simp [student2_update_go]

/-- Unfolding `student2_update_go`: the last loop iteration. -/
theorem student2_update_go_succ (concepts kn vis : List Nat) (m : Nat) :
    student2_update_go concepts kn vis (m + 1) =
      (if concepts.getD m 0 = 1 then
        ((if (student2_update_go concepts kn vis m).2.getD m 0 ≥ 1 then
            (student2_update_go concepts kn vis m).1.set m 1
          else (student2_update_go concepts kn vis m).1),
         (student2_update_go concepts kn vis m).2.set m 1)
      else student2_update_go concepts kn vis m) := by
  unfold student2_update_go
  rw [List.range_succ, List.foldl_append, List.foldl_cons, List.foldl_nil]

/-- Elementwise description of the `Student2.do_exercise` update loop run over
the first `m` indices: `visited` becomes `1` at every marked in-range index
below `m`; `knowledge` becomes `1` exactly at the marked in-range indices
below `m` whose original `visited` entry was at least `1`.  All other entries
(and both lengths) are unchanged. -/
theorem student2_update_go_spec (concepts kn vis : List Nat) (m : Nat) :
    (student2_update_go concepts kn vis m).1.length = kn.length ∧
    (student2_update_go concepts kn vis m).2.length = vis.length ∧
    (∀ j, (student2_update_go concepts kn vis m).1.getD j 0 =
      if j < m ∧ concepts.getD j 0 = 1 ∧ vis.getD j 0 ≥ 1 ∧ j < kn.length then 1
      else kn.getD j 0) ∧
    (∀ j, (student2_update_go concepts kn vis m).2.getD j 0 =
      if j < m ∧ concepts.getD j 0 = 1 ∧ j < vis.length then 1
      else vis.getD j 0) := by
  induction m with
  | zero =>
    rw [student2_update_go_zero]
    exact ⟨rfl, rfl, fun j => by rw [if_neg (by omega)], fun j => by rw [if_neg (by omega)]⟩
  | succ m ih =>
    obtain ⟨hk, hv, hkj, hvj⟩ := ih
    have hvm : (student2_update_go concepts kn vis m).2.getD m 0 = vis.getD m 0 := by
      rw [hvj m, if_neg (by omega)]
    rw [student2_update_go_succ]
    by_cases hm : concepts.getD m 0 = 1
    · -- index m is marked: visited[m] is set; knowledge[m] set iff vis m ≥ 1
      rw [if_pos hm]
      refine ⟨?_, ?_, ?_, ?_⟩
      · dsimp only
        split <;> simp [List.length_set, hk]
      · simp [List.length_set, hv]
      · intro j
        dsimp only
        by_cases hge : (student2_update_go concepts kn vis m).2.getD m 0 ≥ 1
        · rw [if_pos hge, getD_set_eq_if]
          by_cases hjm : m = j ∧ m < (student2_update_go concepts kn vis m).1.length
          · rw [if_pos hjm]
            have hvge : vis.getD j 0 ≥ 1 := by
              rw [← hjm.1]; rw [hvm] at hge; exact hge
            rw [if_pos ⟨by omega, by rw [← hjm.1]; exact hm, hvge,
              by rw [hk] at hjm; omega⟩]
          · rw [if_neg hjm, hkj j]
            rw [hk] at hjm
            by_cases hc : j < m ∧ concepts.getD j 0 = 1 ∧ vis.getD j 0 ≥ 1 ∧ j < kn.length
            · rw [if_pos hc, if_pos ⟨by omega, hc.2.1, hc.2.2⟩]
            · rw [if_neg hc, if_neg ?_]
              intro hc'
              rcases hc' with ⟨hj1, hj2, hj3, hj4⟩
              rcases Nat.lt_succ_iff_lt_or_eq.mp hj1 with hlt | heq
              · exact hc ⟨hlt, hj2, hj3, hj4⟩
              · exact hjm ⟨heq.symm, by omega⟩
        · rw [if_neg hge, hkj j]
          rw [hvm] at hge
          by_cases hc : j < m ∧ concepts.getD j 0 = 1 ∧ vis.getD j 0 ≥ 1 ∧ j < kn.length
          · rw [if_pos hc, if_pos ⟨by omega, hc.2.1, hc.2.2⟩]
          · rw [if_neg hc, if_neg ?_]
            intro hc'
            rcases hc' with ⟨hj1, hj2, hj3, hj4⟩
            rcases Nat.lt_succ_iff_lt_or_eq.mp hj1 with hlt | heq
            · exact hc ⟨hlt, hj2, hj3, hj4⟩
            · subst heq; omega
      · intro j
        dsimp only
        rw [getD_set_eq_if]
        by_cases hjm : m = j ∧ m < (student2_update_go concepts kn vis m).2.length
        · rw [if_pos hjm, if_pos ⟨by omega, by rw [← hjm.1]; exact hm,
            by rw [hv] at hjm; omega⟩]
        · rw [if_neg hjm, hvj j]
          rw [hv] at hjm
          by_cases hc : j < m ∧ concepts.getD j 0 = 1 ∧ j < vis.length
          · rw [if_pos hc, if_pos ⟨by omega, hc.2.1, hc.2.2⟩]
          · rw [if_neg hc, if_neg ?_]
            intro hc'
            rcases hc' with ⟨hj1, hj2, hj3⟩
            rcases Nat.lt_succ_iff_lt_or_eq.mp hj1 with hlt | heq
            · exact hc ⟨hlt, hj2, hj3⟩
            · exact hjm ⟨heq.symm, by omega⟩
    · -- index m unmarked: the step is the identity
      rw [if_neg hm]
      refine ⟨hk, hv, ?_, ?_⟩
      · intro j
        rw [hkj j]
        by_cases hc : j < m ∧ concepts.getD j 0 = 1 ∧ vis.getD j 0 ≥ 1 ∧ j < kn.length
        · rw [if_pos hc, if_pos ⟨by omega, hc.2.1, hc.2.2⟩]
        · rw [if_neg hc, if_neg ?_]
          intro hc'
          rcases hc' with ⟨hj1, hj2, hj3, hj4⟩
          rcases Nat.lt_succ_iff_lt_or_eq.mp hj1 with hlt | heq
          · exact hc ⟨hlt, hj2, hj3, hj4⟩
          · subst heq; exact hm hj2
      · intro j
        rw [hvj j]
        by_cases hc : j < m ∧ concepts.getD j 0 = 1 ∧ j < vis.length
        · rw [if_pos hc, if_pos ⟨by omega, hc.2.1, hc.2.2⟩]
        · rw [if_neg hc, if_neg ?_]
          intro hc'
          rcases hc' with ⟨hj1, hj2, hj3⟩
          rcases Nat.lt_succ_iff_lt_or_eq.mp hj1 with hlt | heq
          · exact hc ⟨hlt, hj2, hj3⟩
          · subst heq; exact hm hj2

/-- Two lists with equal lengths and equal `getD` views are equal. -/
theorem list_eq_of_getD (l1 l2 : List Nat) (hlen : l1.length = l2.length)
    (h : ∀ j, l1.getD j 0 = l2.getD j 0) : l1 = l2 := by
  apply List.ext_getElem hlen
  intro i h1 h2
  have hi := h i
  rwa [List.getD_eq_getElem l1 0 h1, List.getD_eq_getElem l2 0 h2] at hi

/-- `learned_all_concepts_in_ex` fails as soon as one tested concept is
unmastered. -/
theorem learned_all_false_of (knowledge concepts : List Nat) (c : Nat)
    (hc : c < concepts.length) (h1 : concepts.getD c 0 = 1)
    (h0 : knowledge.getD c 0 = 0) :
    learned_all_concepts_in_ex knowledge concepts = false := by
  rw [learned_all_concepts_in_ex]
  rw [List.all_eq_false]
  refine ⟨c, List.mem_range.mpr hc, ?_⟩
  dsimp only
  rw [h1, h0]
  decide

/-- `learned_all_concepts_in_ex` succeeds when every tested concept is
mastered. -/
theorem learned_all_true_of (knowledge concepts : List Nat)
    (h : ∀ i, i < concepts.length → concepts.getD i 0 = 1 → knowledge.getD i 0 ≠ 0) :
    learned_all_concepts_in_ex knowledge concepts = true := by
  rw [learned_all_concepts_in_ex, List.all_eq_true]
  intro i hi
  rw [List.mem_range] at hi
  by_cases h1 : concepts.getD i 0 = 1
  · have h0 : knowledge.getD i 0 ≠ 0 := h i hi h1
    rw [List.getD_eq_getElem?_getD] at h0
    rw [h1]
    simp [h0]
  · rw [List.getD_eq_getElem?_getD] at h1
    simp [h1]

/-- C1.  Student2 two-try determinism (`student.py` lines 130-145, 162-166):
for any `Student2` state, graph and single-concept exercise testing concept
`c` whose prerequisites are all mastered, with `knowledge[c] = 0` and the
concept not attempted before (`visited[c] = 0`, what makes this call the
first attempt), `do_exercise` returns `0`, leaves the knowledge vector
unchanged (hence `knowledge[c] = 0`) while setting `visited[c] = 1`; the
second call on the same exercise (prerequisites still satisfied) returns `1`
and sets `knowledge[c] = 1` in that same call.  No randomness is involved. -/
theorem student2_two_try_determinism (s : Student2) (tree : ConceptDependencyGraph)
    (ex : Exercise) (c : Nat)
    (hc : c < ex.concepts.length)
    (hone : ex.concepts.getD c 0 = 1)
    (hsingle : ∀ i, i ≠ c → ex.concepts.getD i 0 ≠ 1)
    (hpre : fulfilled_prereqs s.knowledge tree ex.concepts = true)
    (hkc : s.knowledge.getD c 0 = 0)
    (hvc : s.visited.getD c 0 = 0)
    (hklen : c < s.knowledge.length)
    (hvlen : c < s.visited.length) :
    (s.do_exercise tree ex).2 = 0 ∧
    (s.do_exercise tree ex).1.knowledge = s.knowledge ∧
    (s.do_exercise tree ex).1.knowledge.getD c 0 = 0 ∧
    (s.do_exercise tree ex).1.visited.getD c 0 = 1 ∧
    ((s.do_exercise tree ex).1.do_exercise tree ex).2 = 1 ∧
    ((s.do_exercise tree ex).1.do_exercise tree ex).1.knowledge.getD c 0 = 1 := by
  obtain ⟨hk, hv, hkj, hvj⟩ :=
    student2_update_go_spec ex.concepts s.knowledge s.visited ex.concepts.length
  -- the first call leaves knowledge unchanged
  have hU1 : (student2_update_go ex.concepts s.knowledge s.visited ex.concepts.length).1
      = s.knowledge := by
    refine list_eq_of_getD _ _ hk ?_
    intro j
    rw [hkj j, if_neg ?_]
    intro hj
    rcases hj with ⟨-, hj2, hj3, -⟩
    by_cases hjc : j = c
    · subst hjc; omega
    · exact hsingle j hjc hj2
  have hV1c : (student2_update_go ex.concepts s.knowledge s.visited ex.concepts.length).2.getD c 0
      = 1 := by
    rw [hvj c, if_pos ⟨hc, hone, hvlen⟩]
  have hfirst : s.do_exercise tree ex =
      (Student2.mk (student2_update_go ex.concepts s.knowledge s.visited ex.concepts.length).1
        (student2_update_go ex.concepts s.knowledge s.visited ex.concepts.length).2,
       0) := by
    rw [Student2.do_exercise]
    simp only [hpre, if_pos, student2_update, ite_true]
    rw [hU1, learned_all_false_of s.knowledge ex.concepts c hc hone hkc]
    simp
  -- the second call sets knowledge[c] and reports success
  obtain ⟨hk', hv', hkj', hvj'⟩ :=
    student2_update_go_spec ex.concepts s.knowledge
      (student2_update_go ex.concepts s.knowledge s.visited ex.concepts.length).2
      ex.concepts.length
  have hK2c : (student2_update_go ex.concepts s.knowledge
      (student2_update_go ex.concepts s.knowledge s.visited ex.concepts.length).2
      ex.concepts.length).1.getD c 0 = 1 := by
    rw [hkj' c, if_pos ⟨hc, hone, by rw [hV1c], hklen⟩]
  have hsecond_learned : learned_all_concepts_in_ex
      (student2_update_go ex.concepts s.knowledge
        (student2_update_go ex.concepts s.knowledge s.visited ex.concepts.length).2
        ex.concepts.length).1 ex.concepts = true := by
    refine learned_all_true_of _ _ ?_
    intro i hi h1
    by_cases hic : i = c
    · subst hic; rw [hK2c]; omega
    · exact absurd h1 (hsingle i hic)
  have hsecond : Student2.do_exercise
      (Student2.mk s.knowledge
        (student2_update_go ex.concepts s.knowledge s.visited ex.concepts.length).2)
      tree ex =
      (Student2.mk (student2_update_go ex.concepts s.knowledge
          (student2_update_go ex.concepts s.knowledge s.visited ex.concepts.length).2
          ex.concepts.length).1
        (student2_update_go ex.concepts s.knowledge
          (student2_update_go ex.concepts s.knowledge s.visited ex.concepts.length).2
          ex.concepts.length).2,
       1) := by
    rw [Student2.do_exercise]
    dsimp only
    simp only [hpre, student2_update, ite_true]
    rw [hsecond_learned]
    simp
  refine ⟨?_, ?_, ?_, ?_, ?_, ?_⟩
  · rw [hfirst]
  · rw [hfirst]; exact hU1
  · rw [hfirst]; rw [hU1]; exact hkc
  · rw [hfirst]; exact hV1c
  · rw [hfirst]
    show (Student2.do_exercise _ tree ex).2 = 1
    rw [hU1, hsecond]
  · rw [hfirst]
    show (Student2.do_exercise _ tree ex).1.knowledge.getD c 0 = 1
    rw [hU1, hsecond]
    exact hK2c

/-- Witness for C1 at a concrete one-concept state. -/
theorem student2_two_try_determinism_witness :
    ((Student2.mk [0] [0]).do_exercise ⟨1, fun _ => []⟩ ⟨[1]⟩).2 = 0 ∧
    ((Student2.mk [0] [0]).do_exercise ⟨1, fun _ => []⟩ ⟨[1]⟩).1.knowledge = [0] ∧
    ((Student2.mk [0] [0]).do_exercise ⟨1, fun _ => []⟩ ⟨[1]⟩).1.knowledge.getD 0 0 = 0 ∧
    ((Student2.mk [0] [0]).do_exercise ⟨1, fun _ => []⟩ ⟨[1]⟩).1.visited.getD 0 0 = 1 ∧
    (((Student2.mk [0] [0]).do_exercise ⟨1, fun _ => []⟩ ⟨[1]⟩).1.do_exercise
        ⟨1, fun _ => []⟩ ⟨[1]⟩).2 = 1 ∧
    (((Student2.mk [0] [0]).do_exercise ⟨1, fun _ => []⟩ ⟨[1]⟩).1.do_exercise
        ⟨1, fun _ => []⟩ ⟨[1]⟩).1.knowledge.getD 0 0 = 1 :=
  student2_two_try_determinism (Student2.mk [0] [0]) ⟨1, fun _ => []⟩ ⟨[1]⟩ 0
    (by decide) (by decide)
    (by
      intro i hi
      match i with
      | 0 => exact absurd rfl hi
      | Nat.succ n => simp [List.getD])
    (by decide) (by decide) (by decide) (by decide) (by decide)

/-- C2.  Reward timing of the exact simulator (`student.py` lines 181-190):
for every simulator state and action, `advance_simulator` returns
`(ob, reward)` where `reward` is the sum of the wrapped student's knowledge
vector read before `do_exercise` is applied in this call, and `ob` is the
result of `do_exercise` on `Exercise(action.conceptvec)`. -/
theorem advance_simulator_reward_timing {σ : Type}
    (knowledgeOf : σ → List Nat)
    (doEx : σ → ConceptDependencyGraph → Exercise → σ × Nat)
    (sim : StudentExactSim σ) (action : StudentAction) :
    (StudentExactSim.advance_simulator knowledgeOf doEx sim action).1.2 =
      (knowledgeOf sim.student).sum ∧
    (StudentExactSim.advance_simulator knowledgeOf doEx sim action).1.1 =
      (doEx sim.student sim.dgraph (Exercise.mk action.conceptvec)).2 ∧
    (StudentExactSim.advance_simulator knowledgeOf doEx sim action).2.student =
      (doEx sim.student sim.dgraph (Exercise.mk action.conceptvec)).1 :=
  ⟨rfl, rfl, rfl⟩

/-- The pre-update reward timing is observable: on a `Student2` one step away
from mastering concept 1, the reward returned by `advance_simulator` is the
incoming mastery sum `1`, although the knowledge sum after this very call's
update is `2`. -/
theorem advance_simulator_pre_not_post :
    (StudentExactSim.advance_simulator (Student2.knowledge)
      (fun s tree ex => s.do_exercise tree ex)
      (StudentExactSim.mk (Student2.mk [1, 0] [0, 1]) ⟨2, fun _ => []⟩)
      (StudentAction.mk 1 [0, 1])).1.2 = 1 ∧
    ((StudentExactSim.advance_simulator (Student2.knowledge)
      (fun s tree ex => s.do_exercise tree ex)
      (StudentExactSim.mk (Student2.mk [1, 0] [0, 1]) ⟨2, fun _ => []⟩)
      (StudentAction.mk 1 [0, 1])).2.student.knowledge).sum = 2 := by
  decide

/-- C3.  Prerequisite gating for the probabilistic `Student` (`student.py`
lines 62-80, 83-95): whenever `fulfilled_prereqs` is false, `do_exercise`
leaves the student (in particular the knowledge vector) entirely unchanged
and returns `1` exactly when the single uniform draw it consumes is at most
`p_trans_not_satisfied`. -/
theorem student_prereq_gating (s : Student) (tree : ConceptDependencyGraph)
    (ex : Exercise) (draws : Nat → ℚ)
    (h : fulfilled_prereqs s.knowledge tree ex.concepts = false) :
    (s.do_exercise tree ex draws).1 = s ∧
    ((s.do_exercise tree ex draws).2 = 1 ↔ draws 0 ≤ s.p_trans_not_satisfied) := by
  rw [Student.do_exercise]
  simp only [h, Bool.false_eq_true, if_false]
  refine ⟨by trivial, ?_⟩
  constructor
  · intro h1
    by_contra hd
    rw [if_neg hd] at h1
    exact absurd h1 (by decide)
  · intro hd
    rw [if_pos hd]

/-- Witness for C3: concept 1's prerequisite (concept 0) is unmastered, so
the exercise testing concept 1 fails the prerequisite check; with the first
draw `1/2` and `p_trans_not_satisfied = 3/10`, the student is unchanged and
the observation is `0`. -/
theorem student_prereq_gating_witness :
    ((Student.mk (1/2) (3/10) 1 [0, 0]).do_exercise
        ⟨2, fun i => if i = 1 then [1, 0] else []⟩ ⟨[0, 1]⟩ (fun _ => 1/2)).1 =
      Student.mk (1/2) (3/10) 1 [0, 0] ∧
    (((Student.mk (1/2) (3/10) 1 [0, 0]).do_exercise
        ⟨2, fun i => if i = 1 then [1, 0] else []⟩ ⟨[0, 1]⟩ (fun _ => 1/2)).2 = 1 ↔
      (1 : ℚ)/2 ≤ 3/10) :=
  student_prereq_gating (Student.mk (1/2) (3/10) 1 [0, 0])
    ⟨2, fun i => if i = 1 then [1, 0] else []⟩ ⟨[0, 1]⟩ (fun _ => 1/2)
    (by decide)

/-- C4.  `StudentAction` key identity (`student.py` lines 202-214): equality
holds exactly when the `concept` fields agree, the hash equals the concept
index, and hence two actions sharing a `concept` are equal and hash-equal
regardless of their `conceptvec` fields. -/
theorem studentaction_key_identity (a b : StudentAction) :
    (a.pyEq b = true ↔ a.concept = b.concept) ∧
    a.pyHash = a.concept ∧
    (a.concept = b.concept → a.pyEq b = true ∧ a.pyHash = b.pyHash) := by
  refine ⟨by simp [StudentAction.pyEq], rfl, fun h => ⟨?_, ?_⟩⟩
  · simp [StudentAction.pyEq, h]
  · simp [StudentAction.pyHash, h]

/-- Witness for C4: two actions with concept `2` but different one-hot
vectors compare equal and hash identically. -/
theorem studentaction_key_identity_witness :
    (StudentAction.mk 2 [0, 0, 1, 0]).pyEq (StudentAction.mk 2 [9, 9]) = true ∧
    (StudentAction.mk 2 [0, 0, 1, 0]).pyHash = (StudentAction.mk 2 [9, 9]).pyHash :=
  (studentaction_key_identity (StudentAction.mk 2 [0, 0, 1, 0])
    (StudentAction.mk 2 [9, 9])).2.2 rfl

/-! ## C6: worker-chunk reduction -/

/-- The `test_dkt_chunk` accumulation loop computes the componentwise sums of
its per-trajectory results. -/
theorem test_dkt_chunk_accum_eq_sum (results : List (ℚ × ℚ)) :
    test_dkt_chunk_accum results =
      ((results.map Prod.fst).sum, (results.map Prod.snd).sum) := by
  suffices h : ∀ init : ℚ × ℚ,
      results.foldl (fun acc r => (acc.1 + r.1, acc.2 + r.2)) init =
        (init.1 + (results.map Prod.fst).sum, init.2 + (results.map Prod.snd).sum) by
    rw [test_dkt_chunk_accum, h (0, 0)]
    simp
  intro init
  induction results generalizing init with
  | nil => simp
  | cons r rs ih =>
    rw [List.foldl_cons, ih]
    simp [add_assoc]

/-- C6.  Worker-chunk reduction correctness (`mcts_tests.py` lines 279-305
and 338-340): for any partition of the trajectory results into equal-sized
chunks of `traj_per_job`, summing the per-chunk `(score_sum, best_q_sum)`
accumulators of `test_dkt_chunk` and dividing by `n_jobs * traj_per_job` (as
`test_dkt` does) equals the mean score and mean best-q taken directly over
the full un-partitioned set of trajectories. -/
theorem test_dkt_chunk_reduction (chunks : List (List (ℚ × ℚ))) (traj_per_job : Nat)
    (hlen : ∀ c ∈ chunks, c.length = traj_per_job) :
    test_dkt_reduce (chunks.map test_dkt_chunk_accum) (chunks.length * traj_per_job) =
      ((chunks.flatten.map Prod.fst).sum / (chunks.flatten.length : ℚ),
       (chunks.flatten.map Prod.snd).sum / (chunks.flatten.length : ℚ)) := by
  have hlength : ∀ (l : List (List (ℚ × ℚ))),
      (∀ c ∈ l, c.length = traj_per_job) →
      l.flatten.length = l.length * traj_per_job := by
    intro l
    induction l with
    | nil => intro _; simp
    | cons c cs ih =>
      intro hl
      have hc := hl c (List.mem_cons_self c cs)
      have ih' := ih (fun x hx => hl x (List.mem_cons_of_mem c hx))
      simp only [List.flatten_cons, List.length_append, List.length_cons, hc, ih']
      rw [Nat.succ_mul, Nat.add_comm]
  have hfst : ((chunks.map test_dkt_chunk_accum).map Prod.fst).sum =
      (chunks.flatten.map Prod.fst).sum := by
    rw [List.map_map, List.map_flatten, List.sum_flatten, List.map_map]
    congr 1
    apply List.map_congr_left
    intro c _
    simp [Function.comp, test_dkt_chunk_accum_eq_sum]
  have hsnd : ((chunks.map test_dkt_chunk_accum).map Prod.snd).sum =
      (chunks.flatten.map Prod.snd).sum := by
    rw [List.map_map, List.map_flatten, List.sum_flatten, List.map_map]
    congr 1
    apply List.map_congr_left
    intro c _
    simp [Function.comp, test_dkt_chunk_accum_eq_sum]
  rw [test_dkt_reduce, hfst, hsnd, hlength chunks hlen]

/-- Witness for C6: two chunks of two trajectories each. -/
theorem test_dkt_chunk_reduction_witness :
    test_dkt_reduce
        (([[(1, 2), (3, 4)], [(5, 6), (7, 8)]] :
          List (List (ℚ × ℚ))).map test_dkt_chunk_accum)
        (([[(1, 2), (3, 4)], [(5, 6), (7, 8)]] :
          List (List (ℚ × ℚ))).length * 2) =
      ((([[(1, 2), (3, 4)], [(5, 6), (7, 8)]] :
          List (List (ℚ × ℚ))).flatten.map Prod.fst).sum /
        ((([[(1, 2), (3, 4)], [(5, 6), (7, 8)]] :
          List (List (ℚ × ℚ))).flatten.length : ℚ)),
       (([[(1, 2), (3, 4)], [(5, 6), (7, 8)]] :
          List (List (ℚ × ℚ))).flatten.map Prod.snd).sum /
        ((([[(1, 2), (3, 4)], [(5, 6), (7, 8)]] :
          List (List (ℚ × ℚ))).flatten.length : ℚ))) :=
  test_dkt_chunk_reduction [[(1, 2), (3, 4)], [(5, 6), (7, 8)]] 2 (by decide)

/-! ## C7: bare `except` around `os.makedirs` -/

/-- C7 counterexample: at the concrete input where `os.makedirs` fails with a
permission error (not an already-exists error), the `try/except` in
`dkt_train_models` swallows the failure and proceeds as success — the claim
that only the already-exists failure is swallowed and any other failure
propagates is false on this code. -/
theorem dkt_train_models_makedirs_counterexample :
    dkt_train_models_makedirs (Except.error OSError.permissionDenied) = Except.ok () ∧
    OSError.permissionDenied ≠ OSError.alreadyExists ∧
    dkt_train_models_makedirs (Except.error OSError.permissionDenied) ≠
      Except.error OSError.permissionDenied :=
  ⟨rfl, fun h => OSError.noConfusion h, fun h => Except.noConfusion h⟩

/-- C7 amended.  Directory-creation error handling (`model_training.py`
lines 105-110, `mcts_tests.py` lines 491-497): the bare `except: pass`
swallows every `os.makedirs` failure — already-exists, permissions, invalid
path alike — so directory creation always continues as success and no
directory-creation failure propagates out of `dkt_train_models`. -/
theorem dkt_train_models_makedirs_amended (res : Except OSError Unit) :
    dkt_train_models_makedirs res = Except.ok () := by
  cases res <;> rfl

/-! ## C8: worker partition of the training and memoization runs -/

/-- `countP` over `List.range n` of a predicate that holds exactly at a
single point `j0 < n` is `1`. -/
theorem countP_range_one (P : Nat → Bool) (n j0 : Nat) (hj : j0 < n)
    (hP : ∀ j, P j = true ↔ j = j0) : (List.range n).countP P = 1 := by
  induction n with
  | zero => omega
  | succ n ih =>
    rw [List.range_succ, List.countP_append]
    by_cases hc : j0 = n
    · subst hc
      have h0 : (List.range j0).countP P = 0 := by
        rw [List.countP_eq_zero]
        intro a ha hPa
        rw [List.mem_range] at ha
        have := (hP a).mp hPa
        omega
      have h1 : List.countP P [j0] = 1 := by
        simp [List.countP_cons, (hP j0).mpr rfl]
      omega
    · have hfalse : P n = false := by
        by_contra h
        rw [Bool.not_eq_false] at h
        exact hc ((hP n).mp h).symm
      have h2 : List.countP P [n] = 0 := by
        simp [List.countP_cons, hfalse]
      rw [ih (by omega)]
      omega

/-- `List.range'` with a stride is the strided image of `List.range`. -/
theorem range'_eq_map_range (step : Nat) : ∀ (n s : Nat),
    List.range' s n step = (List.range n).map (fun j => s + j * step) := by
  intro n
  induction n with
  | zero => intro s; simp
  | succ n ih =>
    intro s
    rw [List.range'_succ, ih (s + step), List.range_succ_eq_map]
    simp only [List.map_cons, List.map_map, Nat.zero_mul, Nat.add_zero]
    congr 1
    apply List.map_congr_left
    intro j _
    simp only [Function.comp]
    rw [Nat.succ_mul]
    omega

/-- C8.  Parallel-partition precondition (`model_training.py` lines 115-121
and 225-232): with `n_jobs = min(5, num_runs)`, the partition fails hard
(assertion error) whenever `num_runs` is not divisible by `n_jobs`; when it
is divisible, the runs are split into exactly `n_jobs` contiguous chunks
`(j * runs_per_job, runs_per_job)` of `runs_per_job = num_runs / n_jobs`
runs each, and every run index below `num_runs` lies in exactly one chunk. -/
theorem dkt_parallel_partition_spec (num_runs n_jobs runs_per_job : Nat)
    (h1 : 1 ≤ num_runs)
    (hjobs : n_jobs = min 5 num_runs)
    (hrpj : runs_per_job = num_runs / n_jobs) :
    (¬ num_runs % n_jobs = 0 →
      dkt_parallel_partition num_runs = Except.error ("AssertionError")) ∧
    (num_runs % n_jobs = 0 →
      dkt_parallel_partition num_runs =
        Except.ok ((List.range n_jobs).map (fun j => (j * runs_per_job, runs_per_job))) ∧
      ((List.range n_jobs).map (fun j => (j * runs_per_job, runs_per_job))).length = n_jobs ∧
      (∀ ch ∈ (List.range n_jobs).map (fun j => (j * runs_per_job, runs_per_job)),
        ch.2 = runs_per_job) ∧
      (∀ r, r < num_runs →
        ((List.range n_jobs).map (fun j => (j * runs_per_job, runs_per_job))).countP
          (fun ch => decide (ch.1 ≤ r ∧ r < ch.1 + ch.2)) = 1)) := by
  subst hjobs
  subst hrpj
  have hjpos : 1 ≤ min 5 num_runs := by omega
  constructor
  · intro hmod
    rw [dkt_parallel_partition]
    simp only [if_neg hmod]
  · intro hmod
    have hdvd : min 5 num_runs ∣ num_runs := Nat.dvd_of_mod_eq_zero hmod
    have hmul : num_runs / min 5 num_runs * min 5 num_runs = num_runs :=
      Nat.div_mul_cancel hdvd
    have hrpos : 1 ≤ num_runs / min 5 num_runs := by
      by_contra h
      have h0 : num_runs / min 5 num_runs = 0 :=
        Nat.lt_one_iff.mp (Nat.lt_of_not_le h)
      rw [h0, Nat.zero_mul] at hmul
      omega
    have hmul' : min 5 num_runs * (num_runs / min 5 num_runs) = num_runs := by
      rw [Nat.mul_comm]
      exact hmul
    refine ⟨?_, by simp, ?_, ?_⟩
    · rw [dkt_parallel_partition]
      simp only [if_pos hmod]
      congr 1
      rw [pyRange]
      have hlen : (num_runs + num_runs / min 5 num_runs - 1) / (num_runs / min 5 num_runs)
          = min 5 num_runs := by
        have hsplit : num_runs + num_runs / min 5 num_runs - 1 =
            (num_runs / min 5 num_runs - 1) + min 5 num_runs * (num_runs / min 5 num_runs) := by
          omega
        rw [hsplit, Nat.add_mul_div_right _ _ (by omega),
          Nat.div_eq_of_lt (by omega), Nat.zero_add]
      rw [hlen, range'_eq_map_range, List.map_map]
      apply List.map_congr_left
      intro j _
      simp [Function.comp]
    · intro ch hch
      obtain ⟨j, -, rfl⟩ := List.mem_map.mp hch
      rfl
    · intro r hr
      rw [List.countP_map]
      have hrd : r / (num_runs / min 5 num_runs) < min 5 num_runs := by
        rw [Nat.div_lt_iff_lt_mul (show 0 < num_runs / min 5 num_runs by omega)]
        omega
      apply countP_range_one _ _ (r / (num_runs / min 5 num_runs)) hrd
      intro j
      simp only [Function.comp, decide_eq_true_eq]
      constructor
      · intro hcov
        exact (Nat.div_eq_of_lt_le hcov.1 (by rw [Nat.succ_mul]; omega)).symm
      · intro hj
        subst hj
        refine ⟨Nat.div_mul_le_self r _, ?_⟩
        have hmodlt : r % (num_runs / min 5 num_runs) < num_runs / min 5 num_runs :=
          Nat.mod_lt _ (by omega)
        have hdm := Nat.div_add_mod r (num_runs / min 5 num_runs)
        have hcomm : r / (num_runs / min 5 num_runs) * (num_runs / min 5 num_runs) =
            (num_runs / min 5 num_runs) * (r / (num_runs / min 5 num_runs)) :=
          Nat.mul_comm _ _
        omega

/-- Witness for C8: `num_runs = 7` violates divisibility and aborts;
`num_runs = 90` (the configured value) partitions into 5 chunks of 18. -/
theorem dkt_parallel_partition_spec_witness :
    dkt_parallel_partition 7 = Except.error ("AssertionError") ∧
    dkt_parallel_partition 90 =
      Except.ok ((List.range 5).map (fun j => (j * 18, 18))) :=
  ⟨(dkt_parallel_partition_spec 7 (min 5 7) (7 / min 5 7) (by decide) rfl rfl).1
      (by decide),
   ((dkt_parallel_partition_spec 90 5 18 (by decide) (by decide) (by decide)).2
      (by decide)).1⟩

/-! ## C9: the Student2 constructor call in `dkt_multistep_single` -/

/-- C9 (code bug).  `dkt_multistep_single` (`model_training.py` line 257)
calls `st.Student2(n_concepts, True)` with two positional arguments, but
`Student2.__init__` (`student.py` line 113) accepts exactly one argument
besides `self`; CPython therefore raises `TypeError` on every invocation,
before any trajectory is sampled, so the claimed evaluation loop is never
reached. -/
theorem dkt_multistep_single_student2_typeerror :
    dkt_multistep_single_construct_student = Except.error ("TypeError") ∧
    dkt_multistep_single_student2_args ≠ student2_init_arity :=
  ⟨rfl, by decide⟩

/-! ## C10: the undefined name `sparse_r` in `test_student_exact` -/

/-- C10.  `test_student_exact` sets its local `r_type = DENSE`
(`mcts_tests.py` line 173) but never passes it on: `sparse_r` is the name
actually supplied in the `r_type` position at line 191, it is bound neither
locally, nor at module level, nor by any wildcard import, so evaluating the
arguments of the `Parallel` call raises `NameError` on every invocation and
no trajectory ever runs with the configured reward type. -/
theorem test_student_exact_sparse_r_undefined :
    test_student_exact_r_type = RewardType.DENSE ∧
    test_student_exact_env.contains ("sparse_r") = false ∧
    resolveAll test_student_exact_env test_student_exact_call_args =
      Except.error ("NameError: name sparse_r is not defined") :=
  ⟨rfl, rfl, rfl⟩

/-! ## C5: memoization exhaustiveness -/

/-- The branch digits of one memoization level, in order, are exactly
`0, 1, ..., 2*n_concepts - 1` (the digit computation ignores its
`n_concepts` argument `m`). -/
theorem memoBranches_digits (m n : Nat) :
    (memoBranches n).map (fun b => action_ob_encode m b.1 b.2) = List.range (n * 2) := by
  induction n with
  | zero => rfl
  | succ n ih =>
    rw [memoBranches, List.range_succ, List.flatMap_append, List.map_append]
    rw [show ((List.range n).flatMap fun a => [(a, 0), (a, 1)]) = memoBranches n from rfl, ih]
    have h2 : (n + 1) * 2 = (n * 2 + 1) + 1 := by omega
    rw [h2, List.range_succ, List.range_succ]
    simp [action_ob_encode]

/-- Every memoization branch has an in-range action and a binary
observation. -/
theorem memoBranches_mem {n : Nat} {b : Nat × Nat} (hb : b ∈ memoBranches n) :
    b.1 < n ∧ b.2 < 2 := by
  rw [memoBranches, List.mem_flatMap] at hb
  obtain ⟨a, ha, hb2⟩ := hb
  rw [List.mem_range] at ha
  rw [List.mem_cons] at hb2
  rcases hb2 with h | hb2
  · subst h
    exact ⟨ha, by omega⟩
  · rw [List.mem_singleton] at hb2
    subst hb2
    exact ⟨ha, by omega⟩

/-- `countP` distributes over `flatMap` as a sum of per-element counts. -/
theorem memo_countP_flatMap {α β : Type} (p : β → Bool) (l : List α) (f : α → List β) :
    (l.flatMap f).countP p = (l.map (fun a => (f a).countP p)).sum := by
  induction l with
  | nil => rfl
  | cons a l ih =>
    rw [List.flatMap_cons, List.countP_append, List.map_cons, List.sum_cons, ih]

/-- Sums of mapped pointwise additions split. -/
theorem sum_map_add {α : Type} (l : List α) (f g : α → Nat) :
    (l.map (fun x => f x + g x)).sum = (l.map f).sum + (l.map g).sum := by
  induction l with
  | nil => rfl
  | cons a l ih =>
    simp only [List.map_cons, List.sum_cons, ih]
    omega

/-- A mapped indicator sum vanishes when the condition never holds. -/
theorem sum_map_ite_zero {α : Type} (l : List α) (C : α → Prop) [DecidablePred C]
    (h : ∀ d ∈ l, ¬ C d) :
    (l.map (fun d => if C d then 1 else 0)).sum = 0 := by
  induction l with
  | nil => rfl
  | cons a l ih =>
    simp only [List.map_cons, List.sum_cons]
    rw [if_neg (h a (List.mem_cons_self a l)),
      ih (fun d hd => h d (List.mem_cons_of_mem a hd))]

/-- Exactly one `d` below `B` satisfies `H + d = ix`, provided `ix` lies in
the window `[H, H + B)`. -/
theorem sum_range_ite_eq (B H ix : Nat) :
    ((List.range B).map (fun d => if H + d = ix then 1 else 0)).sum =
      if H ≤ ix ∧ ix < H + B then 1 else 0 := by
  induction B with
  | zero =>
    simp only [List.range_zero, List.map_nil, List.sum_nil]
    rw [if_neg (by omega)]
  | succ B ih =>
    rw [List.range_succ, List.map_append, List.sum_append, ih]
    simp only [List.map_cons, List.map_nil, List.sum_cons, List.sum_nil]
    by_cases h : H + B = ix
    · rw [if_neg (show ¬(H ≤ ix ∧ ix < H + B) by omega), if_pos h,
        if_pos (show H ≤ ix ∧ ix < H + (B + 1) by omega)]
      omega
    · rw [if_neg h]
      by_cases h2 : H ≤ ix ∧ ix < H + B
      · rw [if_pos h2, if_pos (show H ≤ ix ∧ ix < H + (B + 1) by omega)]
        omega
      · rw [if_neg h2, if_neg (show ¬(H ≤ ix ∧ ix < H + (B + 1)) by omega)]
        omega

/-- Exactly one stride-`M` window `[(H+d)M, (H+d+1)M)` with `d < B` contains
`ix`, provided `ix` lies in `[H*M, (H+B)*M)`. -/
theorem sum_range_ite_interval (B M H ix : Nat) :
    ((List.range B).map
      (fun d => if (H + d) * M ≤ ix ∧ ix < (H + d + 1) * M then 1 else 0)).sum =
      if H * M ≤ ix ∧ ix < (H + B) * M then 1 else 0 := by
  induction B with
  | zero =>
    simp only [List.range_zero, List.map_nil, List.sum_nil, Nat.add_zero]
    rw [if_neg (by omega)]
  | succ B ih =>
    rw [List.range_succ, List.map_append, List.sum_append, ih]
    simp only [List.map_cons, List.map_nil, List.sum_cons, List.sum_nil]
    have hmono1 : (H + B) * M ≤ (H + B + 1) * M := Nat.mul_le_mul_right M (by omega)
    have hmono0 : H * M ≤ (H + B) * M := Nat.mul_le_mul_right M (by omega)
    by_cases h : ix < (H + B) * M
    · rw [if_neg (show ¬((H + B) * M ≤ ix ∧ ix < (H + B + 1) * M) by omega)]
      by_cases h2 : H * M ≤ ix
      · rw [if_pos (show H * M ≤ ix ∧ ix < (H + B) * M from ⟨h2, h⟩),
          if_pos (show H * M ≤ ix ∧ ix < (H + (B + 1)) * M by
            constructor
            · exact h2
            · have : H + (B + 1) = H + B + 1 := by omega
              rw [this]
              omega)]
        omega
      · rw [if_neg (show ¬(H * M ≤ ix ∧ ix < (H + B) * M) by omega),
          if_neg (show ¬(H * M ≤ ix ∧ ix < (H + (B + 1)) * M) by
            intro hc
            exact h2 hc.1)]
        omega
    · rw [if_neg (show ¬(H * M ≤ ix ∧ ix < (H + B) * M) by omega)]
      by_cases h3 : ix < (H + B + 1) * M
      · rw [if_pos (show (H + B) * M ≤ ix ∧ ix < (H + B + 1) * M from ⟨by omega, h3⟩),
          if_pos (show H * M ≤ ix ∧ ix < (H + (B + 1)) * M by
            constructor
            · omega
            · have : H + (B + 1) = H + B + 1 := by omega
              rw [this]
              exact h3)]
        omega
      · rw [if_neg (show ¬((H + B) * M ≤ ix ∧ ix < (H + B + 1) * M) by omega),
          if_neg (show ¬(H * M ≤ ix ∧ ix < (H + (B + 1)) * M) by
            intro hc
            have : H + (B + 1) = H + B + 1 := by omega
            rw [this] at hc
            exact h3 hc.2)]
        omega

/-- Write-count invariant of the memoization recursion: a run started at
`step` with history index `history_ix` writes level `k` row `ix` exactly once
when `step ≤ k ≤ horizon` and `ix` lies in the subtree's index window
`[history_ix * (2n)^(k+1-step), (history_ix + 1) * (2n)^(k+1-step))`, and
never otherwise. -/
theorem memo_countWrites (n_concepts : Nat) (pred : List (Nat × Nat) → List ℚ)
    (horizon : Nat) :
    ∀ (d step history_ix : Nat) (seq : List (Nat × Nat)), horizon + 1 - step ≤ d →
    ∀ (k ix : Nat),
      countWrites (dkt_memoize_single_recurse n_concepts pred horizon step history_ix seq) k ix =
        if step ≤ k ∧ k ≤ horizon ∧
            history_ix * (n_concepts * 2) ^ (k + 1 - step) ≤ ix ∧
            ix < (history_ix + 1) * (n_concepts * 2) ^ (k + 1 - step) then 1 else 0 := by
  intro d
  induction d with
  | zero =>
    intro step hix seq hd k ix
    rw [dkt_memoize_single_recurse, if_pos (show step > horizon by omega)]
    rw [countWrites, List.countP_nil]
    rw [if_neg (fun hc => absurd (And.intro hc.1 hc.2.1) (by omega))]
  | succ d ihd =>
    intro step hix seq hd k ix
    by_cases hstep : step > horizon
    · rw [dkt_memoize_single_recurse, if_pos hstep]
      rw [countWrites, List.countP_nil]
      rw [if_neg (fun hc => absurd (And.intro hc.1 hc.2.1) (by omega))]
    · rw [dkt_memoize_single_recurse, if_neg hstep]
      rw [countWrites, memo_countP_flatMap]
      have hpoint : ∀ b ∈ memoBranches n_concepts,
          (((step, history_ix_append n_concepts hix (action_ob_encode n_concepts b.1 b.2),
              pred (seq ++ [b])) ::
            dkt_memoize_single_recurse n_concepts pred horizon (step + 1)
              (history_ix_append n_concepts hix (action_ob_encode n_concepts b.1 b.2))
              (seq ++ [b])).countP (fun e => e.1 == k && e.2.1 == ix)) =
          (if step + 1 ≤ k ∧ k ≤ horizon ∧
              history_ix_append n_concepts hix (action_ob_encode n_concepts b.1 b.2) *
                (n_concepts * 2) ^ (k + 1 - (step + 1)) ≤ ix ∧
              ix < (history_ix_append n_concepts hix (action_ob_encode n_concepts b.1 b.2) + 1) *
                (n_concepts * 2) ^ (k + 1 - (step + 1)) then 1 else 0) +
          (if step = k ∧
              history_ix_append n_concepts hix (action_ob_encode n_concepts b.1 b.2) = ix
            then 1 else 0) := by
        intro b _
        rw [List.countP_cons]
        congr 1
        · have hrec := ihd (step + 1)
            (history_ix_append n_concepts hix (action_ob_encode n_concepts b.1 b.2))
            (seq ++ [b]) (by omega) k ix
          rw [countWrites] at hrec
          exact hrec
        · simp only [beq_iff_eq, Bool.and_eq_true, decide_eq_true_eq]
      rw [List.map_congr_left hpoint, sum_map_add]
      by_cases hklt : k < step
      · -- level above the current subtree: nothing is written
        rw [sum_map_ite_zero _ _ (fun b _ hc => absurd hc.1 (by omega)),
          sum_map_ite_zero _ _ (fun b _ hc => absurd hc.1 (by omega)),
          if_neg (fun hc => absurd hc.1 (by omega))]
      · by_cases hkeq : k = step
        · -- the direct writes of this level
          subst hkeq
          rw [sum_map_ite_zero _ _ (fun b _ hc => absurd hc.1 (by omega))]
          have hfun : (fun b : Nat × Nat =>
              if k = k ∧
                  history_ix_append n_concepts hix (action_ob_encode n_concepts b.1 b.2) = ix
                then (1 : Nat) else 0) =
              (fun d => if hix * (n_concepts * 2) + d = ix then (1 : Nat) else 0) ∘
                (fun b : Nat × Nat => action_ob_encode n_concepts b.1 b.2) := by
            funext b
            simp [Function.comp, history_ix_append]
          rw [hfun, ← List.map_map, memoBranches_digits, sum_range_ite_eq]
          rw [show k + 1 - k = 1 by omega, pow_one]
          rw [if_congr (show (k ≤ k ∧ k ≤ horizon ∧
              hix * (n_concepts * 2) ≤ ix ∧ ix < (hix + 1) * (n_concepts * 2)) ↔
              (hix * (n_concepts * 2) ≤ ix ∧ ix < hix * (n_concepts * 2) + n_concepts * 2) by
            rw [Nat.succ_mul]
            constructor
            · intro hc
              exact ⟨hc.2.2.1, hc.2.2.2⟩
            · intro hc
              exact ⟨Nat.le_refl k, by omega, hc.1, hc.2⟩) rfl rfl]
          omega
        · -- deeper levels: delegate to the sub-windows
          have hklt2 : step + 1 ≤ k := by omega
          by_cases hkh : k ≤ horizon
          · rw [sum_map_ite_zero _
              (fun b : Nat × Nat => step = k ∧
                history_ix_append n_concepts hix (action_ob_encode n_concepts b.1 b.2) = ix)
              (fun b _ hc => absurd hc.1 (by omega))]
            have hfun : (fun b : Nat × Nat =>
                if step + 1 ≤ k ∧ k ≤ horizon ∧
                    history_ix_append n_concepts hix (action_ob_encode n_concepts b.1 b.2) *
                      (n_concepts * 2) ^ (k + 1 - (step + 1)) ≤ ix ∧
                    ix < (history_ix_append n_concepts hix (action_ob_encode n_concepts b.1 b.2) + 1) *
                      (n_concepts * 2) ^ (k + 1 - (step + 1)) then (1 : Nat) else 0) =
                (fun d => if (hix * (n_concepts * 2) + d) * (n_concepts * 2) ^ (k + 1 - (step + 1)) ≤ ix ∧
                    ix < (hix * (n_concepts * 2) + d + 1) * (n_concepts * 2) ^ (k + 1 - (step + 1))
                  then (1 : Nat) else 0) ∘
                  (fun b : Nat × Nat => action_ob_encode n_concepts b.1 b.2) := by
              funext b
              simp only [Function.comp, history_ix_append]
              rw [if_congr (show (step + 1 ≤ k ∧ k ≤ horizon ∧
                  (hix * (n_concepts * 2) + action_ob_encode n_concepts b.1 b.2) *
                    (n_concepts * 2) ^ (k + 1 - (step + 1)) ≤ ix ∧
                  ix < (hix * (n_concepts * 2) + action_ob_encode n_concepts b.1 b.2 + 1) *
                    (n_concepts * 2) ^ (k + 1 - (step + 1))) ↔
                  ((hix * (n_concepts * 2) + action_ob_encode n_concepts b.1 b.2) *
                    (n_concepts * 2) ^ (k + 1 - (step + 1)) ≤ ix ∧
                  ix < (hix * (n_concepts * 2) + action_ob_encode n_concepts b.1 b.2 + 1) *
                    (n_concepts * 2) ^ (k + 1 - (step + 1))) by
                constructor
                · intro hc
                  exact ⟨hc.2.2.1, hc.2.2.2⟩
                · intro hc
                  exact ⟨hklt2, hkh, hc.1, hc.2⟩) rfl rfl]
            rw [hfun, ← List.map_map, memoBranches_digits, sum_range_ite_interval]
            have hexp : k + 1 - step = (k + 1 - (step + 1)) + 1 := by omega
            have e1 : hix * (n_concepts * 2) ^ (k + 1 - step) =
                hix * (n_concepts * 2) * (n_concepts * 2) ^ (k + 1 - (step + 1)) := by
              rw [hexp, pow_succ]
              ring
            have e2 : (hix + 1) * (n_concepts * 2) ^ (k + 1 - step) =
                (hix * (n_concepts * 2) + n_concepts * 2) * (n_concepts * 2) ^ (k + 1 - (step + 1)) := by
              rw [hexp, pow_succ]
              ring
            rw [if_congr (show (step ≤ k ∧ k ≤ horizon ∧
                hix * (n_concepts * 2) ^ (k + 1 - step) ≤ ix ∧
                ix < (hix + 1) * (n_concepts * 2) ^ (k + 1 - step)) ↔
                (hix * (n_concepts * 2) * (n_concepts * 2) ^ (k + 1 - (step + 1)) ≤ ix ∧
                ix < (hix * (n_concepts * 2) + n_concepts * 2) *
                  (n_concepts * 2) ^ (k + 1 - (step + 1))) by
              rw [← e1, ← e2]
              constructor
              · intro hc
                exact ⟨hc.2.2.1, hc.2.2.2⟩
              · intro hc
                exact ⟨by omega, hkh, hc.1, hc.2⟩) rfl rfl]
            omega
          · -- level beyond the horizon: nothing is written
            rw [sum_map_ite_zero _ _ (fun b _ hc => absurd hc.2.1 hkh),
              sum_map_ite_zero _ _ (fun b _ hc => absurd hc.1 (by omega)),
              if_neg (fun hc => absurd hc.2.1 hkh)]

/-- Every write event `(k, ix, v)` of the memoization recursion comes from a
nonempty valid extension `e` of the current history: its level is
`step + |e| - 1`, its row index is the encoding of `e` appended to the
current history index, and its value is the model's prediction for the
extended sequence. -/
theorem memo_writes_mem (n_concepts : Nat) (pred : List (Nat × Nat) → List ℚ)
    (horizon : Nat) :
    ∀ (d step history_ix : Nat) (seq : List (Nat × Nat)), horizon + 1 - step ≤ d →
    ∀ (k ix : Nat) (v : List ℚ),
      (k, ix, v) ∈ dkt_memoize_single_recurse n_concepts pred horizon step history_ix seq →
      ∃ e, e ≠ [] ∧ validHistory n_concepts e ∧ k + 1 = step + e.length ∧
        ix = encodeFrom n_concepts history_ix e ∧ v = pred (seq ++ e) := by
  intro d
  induction d with
  | zero =>
    intro step hix seq hd k ix v hmem
    rw [dkt_memoize_single_recurse, if_pos (show step > horizon by omega)] at hmem
    exact absurd hmem (List.not_mem_nil _)
  | succ d ihd =>
    intro step hix seq hd k ix v hmem
    by_cases hstep : step > horizon
    · rw [dkt_memoize_single_recurse, if_pos hstep] at hmem
      exact absurd hmem (List.not_mem_nil _)
    · rw [dkt_memoize_single_recurse, if_neg hstep, List.mem_flatMap] at hmem
      obtain ⟨b, hb, hmem2⟩ := hmem
      rw [List.mem_cons] at hmem2
      rcases hmem2 with heq | hmem3
      · rw [Prod.mk.injEq, Prod.mk.injEq] at heq
        obtain ⟨hk, hix2, hv⟩ := heq
        refine ⟨[b], by simp, ?_, by rw [hk]; simp, ?_, hv⟩
        · intro p hp
          rw [List.mem_singleton] at hp
          subst hp
          exact memoBranches_mem hb
        · rw [encodeFrom, List.foldl_cons, List.foldl_nil]
          exact hix2
      · obtain ⟨e', hne, hval, hlen, hixe, hve⟩ := ihd (step + 1)
          (history_ix_append n_concepts hix (action_ob_encode n_concepts b.1 b.2))
          (seq ++ [b]) (by omega) k ix v hmem3
        refine ⟨b :: e', by simp, ?_, ?_, ?_, ?_⟩
        · intro p hp
          rw [List.mem_cons] at hp
          rcases hp with hp | hp
          · subst hp
            exact memoBranches_mem hb
          · exact hval p hp
        · rw [List.length_cons]
          omega
        · rw [encodeFrom, List.foldl_cons]
          rw [encodeFrom] at hixe
          exact hixe
        · rw [List.append_assoc, List.singleton_append] at hve
          exact hve

/-- C5.  Memoization exhaustiveness (`model_training.py` lines 135-192): for
`n_concepts ≥ 1` and `horizon ≥ 1`, `dkt_memoize_single` allocates
`horizon+1` tables where table `i` has exactly `(2*n_concepts)^i` rows of
width `n_concepts`; running `dkt_memoize_single_recurse` from step `1` and
history index `0`, every row index in `[0, (2*n_concepts)^k)` of table `k`,
for every `k` in `1..horizon`, is written exactly once; table `0` is never
written; and every write stores the model's prediction for the valid
length-`k` history encoding to its row index. -/
theorem dkt_memoize_exhaustive (n_concepts horizon : Nat)
    (pred : List (Nat × Nat) → List ℚ) (hn : 1 ≤ n_concepts) (hh : 1 ≤ horizon) :
    (dkt_memoize_single_alloc n_concepts horizon).length = horizon + 1 ∧
    (∀ i, i ≤ horizon →
      ((dkt_memoize_single_alloc n_concepts horizon).getD i []).length =
        (2 * n_concepts) ^ i ∧
      ∀ row ∈ (dkt_memoize_single_alloc n_concepts horizon).getD i [],
        row.length = n_concepts) ∧
    (∀ k, 1 ≤ k → k ≤ horizon → ∀ ix, ix < (2 * n_concepts) ^ k →
      countWrites (dkt_memoize_single_recurse n_concepts pred horizon 1 0 []) k ix = 1) ∧
    (∀ ix, countWrites (dkt_memoize_single_recurse n_concepts pred horizon 1 0 []) 0 ix = 0) ∧
    (∀ k ix v, (k, ix, v) ∈ dkt_memoize_single_recurse n_concepts pred horizon 1 0 [] →
      ∃ e, validHistory n_concepts e ∧ e.length = k ∧ encodeFrom n_concepts 0 e = ix ∧
        v = pred e) := by
  refine ⟨?_, ?_, ?_, ?_, ?_⟩
  · rw [dkt_memoize_single_alloc]
    simp
  · intro i hi
    have hget : (dkt_memoize_single_alloc n_concepts horizon).getD i [] =
        List.replicate (num_histories (n_concepts * 2) i) (List.replicate n_concepts (0 : ℚ)) := by
      rw [dkt_memoize_single_alloc, List.getD_eq_getElem?_getD, List.getElem?_map,
        List.getElem?_range (show i < horizon + 1 by omega)]
      rfl
    constructor
    · rw [hget, List.length_replicate, num_histories, Nat.mul_comm]
    · intro row hrow
      rw [hget] at hrow
      rw [List.eq_of_mem_replicate hrow, List.length_replicate]
  · intro k hk1 hkh ix hix
    rw [memo_countWrites n_concepts pred horizon horizon 1 0 [] (by omega) k ix,
      if_pos ⟨hk1, hkh, by simp, by simpa [Nat.mul_comm] using hix⟩]
  · intro ix
    rw [memo_countWrites n_concepts pred horizon horizon 1 0 [] (by omega) 0 ix,
      if_neg (fun hc => absurd hc.1 (by omega))]
  · intro k ix v hmem
    obtain ⟨e, hne, hval, hlen, hixe, hve⟩ :=
      memo_writes_mem n_concepts pred horizon horizon 1 0 [] (by omega) k ix v hmem
    rw [List.nil_append] at hve
    exact ⟨e, hval, by omega, hixe.symm, hve⟩

/-- Witness for C5 at `n_concepts = 1`, `horizon = 1`. -/
theorem dkt_memoize_exhaustive_witness :
    countWrites (dkt_memoize_single_recurse 1 lenPred 1 1 0 []) 1 0 = 1 ∧
    countWrites (dkt_memoize_single_recurse 1 lenPred 1 1 0 []) 0 0 = 0 ∧
    (dkt_memoize_single_alloc 1 1).length = 1 + 1 := by
  have T := dkt_memoize_exhaustive 1 1 lenPred (by decide) (by decide)
  exact ⟨T.2.2.1 1 (by decide) (by decide) 0 (by decide), T.2.2.2.1 0, T.1⟩

end SmartTutor
